import Mathlib

/-!
# Verification of the binary dataset serialization format and its producers

Shallow embedding of the repository's data-set tooling:

* `src/data_sets/generate_data.py` — synthesizes clustered point data with
  `sklearn.datasets.make_blobs(..., random_state=1)`, optionally rescales it with
  `sklearn.preprocessing.minmax_scale`, and writes it in the binary format
  (4-byte `size` header, 4-byte `dims` header, then `data.tobytes()`).
* `src/data_sets/convert_arff_to_binary.py` — parses an `.arff` file with
  `scipy.io.arff.loadarff`, converts it to a `float32` matrix, and writes the
  same binary format with the header taken from `data.shape`.

Modelling decisions:

* Python byte strings are `List Nat` (each entry a byte value).
* `int.to_bytes(len, sys.byteorder)` is `toBytes`: it fails (Python
  `OverflowError`) when the integer is negative or does not fit in `len`
  bytes, otherwise it produces the `len` little-endian bytes.  The host byte
  order (`sys.byteorder`) is fixed to little-endian in this model.
* A numeric value of the element type (`np.float32` by default, 4 bytes) is
  modelled by its fixed-width bit pattern, a natural number below `256 ^ w`
  where `w` is the element width in bytes; `numpy.ndarray.tobytes` is the
  concatenation of those per-value byte groups in row-major order.
* External library calls (`make_blobs`, `minmax_scale`, `loadarff`) and the
  decoder (which exists only in the specification, not under `src/`) are
  modelled from the spec; each such definition carries a doc comment saying so.
-/

deriving instance DecidableEq for Except

namespace DataSets

/-- Errors raised by the embedded operations.  The first three mirror the
Python exceptions the scripts can raise; the last three carry the names the
specification's error taxonomy gives to the failures of the spec-modelled
decoder and text importer. -/
inductive DataError where
  | overflowError
  | valueError
  | zeroDivisionError
  | indexError
  | malformedInput
  | emptyRelation
  | truncatedStream
deriving DecidableEq, Repr

/-! ## Byte-level primitives -/

/-- The `len` little-endian base-256 digits of `n`
(the byte string `int.to_bytes` produces on a little-endian host). -/
def bytesOfNat : Nat → Nat → List Nat
  | _, 0 => []
  | n, len + 1 => n % 256 :: bytesOfNat (n / 256) len

/-- Read a little-endian base-256 byte string back as a natural number. -/
def natOfBytes : List Nat → Nat
  | [] => 0
  | b :: bs => b + 256 * natOfBytes bs

/-- `(n).to_bytes(len, sys.byteorder)`: Python raises `OverflowError` when the
integer is negative or too big to fit in `len` bytes; otherwise it yields the
`len` bytes in host (little-endian) order. -/
def toBytes (n : Int) (len : Nat) : Except DataError (List Nat) :=
  if n < 0 then .error .overflowError
  else if (256 : Int) ^ len ≤ n then .error .overflowError
  else .ok (bytesOfNat n.toNat len)

/-- Concatenate the byte groups produced by `f` over a list
(`numpy.ndarray.tobytes` over the values of the array). -/
def flatBytes (f : α → List Nat) : List α → List Nat
  | [] => []
  | x :: xs => f x ++ flatBytes f xs

theorem bytesOfNat_length (n len : Nat) : (bytesOfNat n len).length = len := by
  induction len generalizing n with
  | zero => rfl
  | succ k ih => simp [bytesOfNat, ih]

theorem natOfBytes_bytesOfNat (n len : Nat) :
    natOfBytes (bytesOfNat n len) = n % 256 ^ len := by
  induction len generalizing n with
  | zero => simp [bytesOfNat, natOfBytes, Nat.mod_one]
  | succ k ih =>
    simp only [bytesOfNat, natOfBytes, ih]
    rw [pow_succ, mul_comm (256 ^ k) 256, Nat.mod_mul]

theorem flatBytes_length (f : α → List Nat) (w : Nat)
    (hf : ∀ x, (f x).length = w) :
    ∀ l : List α, (flatBytes f l).length = w * l.length := by
  intro l
  induction l with
  | nil => simp [flatBytes]
  | cons x xs ih =>
    simp [flatBytes, ih, hf x, Nat.mul_succ, Nat.add_comm]

/-- Taking exactly the length of the left part of an append returns it. -/
theorem take_append_left (xs ys : List Nat) (n : Nat) (h : xs.length = n) :
    (xs ++ ys).take n = xs := by
  subst h
  induction xs with
  | nil => simp
  | cons a as ih => simp [ih]

/-- Dropping the length of the left part of an append plus `m` drops into the
right part. -/
theorem drop_append_add (xs ys : List Nat) (n m : Nat) (h : xs.length = n) :
    (xs ++ ys).drop (n + m) = ys.drop m := by
  subst h
  induction xs with
  | nil => simp
  | cons a as ih => simp [Nat.succ_add, ih]

/-- Dropping exactly the length of the left part of an append. -/
theorem drop_append_left (xs ys : List Nat) (n : Nat) (h : xs.length = n) :
    (xs ++ ys).drop n = ys := by
  have := drop_append_add xs ys n 0 h
  simpa using this

/-! ## The binary write block (the codec's encoder)

`generate_data.py` lines 52–55 and `convert_arff_to_binary.py` lines 37–40 are
the same three writes: `size`/`rows` header, `dims`/`cols` header, payload.
-/

/-- The binary write block: write the two 4-byte header integers, then the
payload bytes.  A header integer that does not fit 4 unsigned bytes raises
`OverflowError` (from `int.to_bytes`) before the payload is written. -/
def writeBinary (size dims : Int) (payload : List Nat) : Except DataError (List Nat) :=
  match toBytes size 4 with
  | .error e => .error e
  | .ok h1 =>
    match toBytes dims 4 with
    | .error e => .error e
    | .ok h2 => .ok (h1 ++ (h2 ++ payload))

/-- The `w`-byte serialization of one value's bit pattern. -/
def valueBytesW (w v : Nat) : List Nat := bytesOfNat v w

/-- Encode a matrix given as a flat row-major list of value bit patterns,
with element width `w` bytes. -/
def encodeW (w : Nat) (rows cols : Int) (values : List Nat) : Except DataError (List Nat) :=
  writeBinary rows cols (flatBytes (valueBytesW w) values)

/-- Encode with the default element type `np.float32` (4 bytes). -/
def encode : Int → Int → List Nat → Except DataError (List Nat) := encodeW 4

theorem toBytes_ok (n : Int) (len : Nat) (h0 : 0 ≤ n) (h1 : n < (256 : Int) ^ len) :
    toBytes n len = .ok (bytesOfNat n.toNat len) := by
  simp [toBytes, not_lt.mpr h0, not_le.mpr h1]

theorem writeBinary_ok (size dims : Int) (payload : List Nat)
    (hs0 : 0 ≤ size) (hs1 : size < (256 : Int) ^ 4)
    (hd0 : 0 ≤ dims) (hd1 : dims < (256 : Int) ^ 4) :
    writeBinary size dims payload =
      .ok (bytesOfNat size.toNat 4 ++ (bytesOfNat dims.toNat 4 ++ payload)) := by
  simp [writeBinary, toBytes_ok size 4 hs0 hs1, toBytes_ok dims 4 hd0 hd1]

/-! ## The decoder (spec-modelled) -/

/-- Split the first `count` groups of `w` bytes off a byte stream, reading each
group back as a value bit pattern. -/
def chunkValues (w : Nat) : Nat → List Nat → List Nat
  | 0, _ => []
  | count + 1, bs => natOfBytes (bs.take w) :: chunkValues w count (bs.drop w)

/-- Modelled from the spec: `Decode(byte stream, numeric_type)` is described in
the specification (§4.1/§6) but has no implementation under `src/` (only the
producers are in the repository).  It reads two unsigned 4-byte integers as
`rows`, `cols`, fails with `TruncatedStream` when fewer bytes are available
than the header declares, and otherwise reinterprets the next
`rows * cols * w` bytes as `rows * cols` values of width `w` in row-major
order. -/
def decodeW (w : Nat) (stream : List Nat) : Except DataError (Nat × Nat × List Nat) :=
  if stream.length < 8 then .error .truncatedStream
  else if (stream.drop 8).length <
      natOfBytes (stream.take 4) * natOfBytes ((stream.drop 4).take 4) * w then
    .error .truncatedStream
  else
    .ok (natOfBytes (stream.take 4), natOfBytes ((stream.drop 4).take 4),
      chunkValues w (natOfBytes (stream.take 4) * natOfBytes ((stream.drop 4).take 4))
        (stream.drop 8))

/-- Decode with the default element type `np.float32` (4 bytes). -/
def decode : List Nat → Except DataError (Nat × Nat × List Nat) := decodeW 4

theorem chunkValues_flatBytes (w : Nat) (values : List Nat)
    (hv : ∀ v ∈ values, v < 256 ^ w) :
    chunkValues w values.length (flatBytes (valueBytesW w) values) = values := by
  induction values with
  | nil => rfl
  | cons v vs ih =>
    have hlen : (valueBytesW w v).length = w := bytesOfNat_length v w
    simp only [List.length_cons, flatBytes, chunkValues,
      take_append_left _ _ w hlen, drop_append_left _ _ w hlen]
    rw [valueBytesW, natOfBytes_bytesOfNat,
      Nat.mod_eq_of_lt (hv v (List.mem_cons_self v vs)),
      ih (fun x hx => hv x (List.mem_cons_of_mem v hx))]

/-- Dropping a whole number of `w`-byte value groups from a serialized payload
is the serialization of the matching suffix of the value list. -/
theorem flatBytes_drop (w : Nat) (f : α → List Nat) (hf : ∀ x, (f x).length = w) :
    ∀ (j : Nat) (l : List α), (flatBytes f l).drop (w * j) = flatBytes f (l.drop j) := by
  intro j
  induction j with
  | zero => simp
  | succ k ih =>
    intro l
    cases l with
    | nil => simp [flatBytes]
    | cons x xs =>
      have : w * (k + 1) = w + w * k := by ring
      rw [List.drop_succ_cons]
      calc (flatBytes f (x :: xs)).drop (w * (k + 1))
          = (f x ++ flatBytes f xs).drop (w + w * k) := by rw [flatBytes, this]
        _ = (flatBytes f xs).drop (w * k) := drop_append_add _ _ w (w * k) (hf x)
        _ = flatBytes f (xs.drop k) := ih xs

/-- A list dropped at an in-range index starts with the element there. -/
theorem drop_eq_getD_cons : ∀ (l : List Nat) (j : Nat), j < l.length →
    l.drop j = l.getD j 0 :: l.drop (j + 1) := by
  intro l
  induction l with
  | nil => intro j h; simp at h
  | cons x xs ih =>
    intro j h
    cases j with
    | zero => simp
    | succ k =>
      have hk : k < xs.length := by simpa using h
      simpa using ih k hk

theorem toBytes_ok_range (n : Int) (len : Nat) (bs : List Nat)
    (h : toBytes n len = .ok bs) : 0 ≤ n ∧ n < (256 : Int) ^ len := by
  by_cases h1 : n < 0
  · simp [toBytes, h1] at h
  · by_cases h2 : (256 : Int) ^ len ≤ n
    · simp [toBytes, h1, h2] at h
    · exact ⟨not_lt.mp h1, not_le.mp h2⟩

theorem valueBytesW_length (w : Nat) : ∀ v, (valueBytesW w v).length = w :=
  fun v => bytesOfNat_length v w

/-! ## Claim theorems about the codec -/

/-- Claim C1: Encode lays the byte stream out as: the 4 host-order bytes of
`rows` at offset 0, the 4 host-order bytes of `cols` at offset 4, then the
4-byte fixed-width serializations of the `rows * cols` values in row-major
order at offsets `8 + 4*j`, with total length exactly `8 + 4*rows*cols`
(no padding, no delimiters, no trailing metadata). -/
theorem encode_layout (rows cols : Int) (values : List Nat)
    (h1 : 0 ≤ rows) (h2 : rows < 2 ^ 32) (h3 : 0 ≤ cols) (h4 : cols < 2 ^ 32)
    (h5 : values.length = rows.toNat * cols.toNat) :
    ∃ s, encode rows cols values = .ok s ∧
      s.length = 8 + 4 * (rows.toNat * cols.toNat) ∧
      s.take 4 = bytesOfNat rows.toNat 4 ∧
      (s.drop 4).take 4 = bytesOfNat cols.toNat 4 ∧
      ∀ j, j < rows.toNat * cols.toNat →
        (s.drop (8 + 4 * j)).take 4 = bytesOfNat (values.getD j 0) 4 := by
  have hpow : (2 : Int) ^ 32 = (256 : Int) ^ 4 := by norm_num
  have hA : (bytesOfNat rows.toNat 4).length = 4 := bytesOfNat_length _ 4
  have hB : (bytesOfNat cols.toNat 4).length = 4 := bytesOfNat_length _ 4
  set P : List Nat := flatBytes (valueBytesW 4) values with hP
  have hPlen : P.length = 4 * values.length :=
    flatBytes_length _ 4 (valueBytesW_length 4) values
  refine ⟨bytesOfNat rows.toNat 4 ++ (bytesOfNat cols.toNat 4 ++ P), ?_, ?_, ?_, ?_, ?_⟩
  · exact writeBinary_ok rows cols P h1 (hpow ▸ h2) h3 (hpow ▸ h4)
  · simp [hA, hB, hPlen, h5]; ring
  · exact take_append_left _ _ 4 hA
  · rw [drop_append_left _ _ 4 hA, take_append_left _ _ 4 hB]
  · intro j hj
    have hj' : j < values.length := by omega
    have e1 : 8 + 4 * j = 4 + (4 + 4 * j) := by ring
    rw [e1, drop_append_add _ _ 4 (4 + 4 * j) hA, drop_append_add _ _ 4 (4 * j) hB,
      flatBytes_drop 4 (valueBytesW 4) (valueBytesW_length 4) j values,
      drop_eq_getD_cons values j hj', flatBytes,
      take_append_left _ _ 4 (valueBytesW_length 4 _)]
    rfl

/-- Witness for C1 at the concrete matrix `rows = 1`, `cols = 2`,
`values = [5, 7]`. -/
theorem encode_layout_witness :
    ∃ s, encode 1 2 [5, 7] = .ok s ∧
      s.length = 8 + 4 * ((1 : Int).toNat * (2 : Int).toNat) ∧
      s.take 4 = bytesOfNat (1 : Int).toNat 4 ∧
      (s.drop 4).take 4 = bytesOfNat (2 : Int).toNat 4 ∧
      ∀ j, j < (1 : Int).toNat * (2 : Int).toNat →
        (s.drop (8 + 4 * j)).take 4 = bytesOfNat (([5, 7] : List Nat).getD j 0) 4 :=
  encode_layout 1 2 [5, 7] (by norm_num) (by norm_num) (by norm_num) (by norm_num)
    (by decide)

/-- Claim C2: Round-trip: for every matrix given as `rows`, `cols` and a flat
row-major list of value bit patterns with `values.length = rows * cols`, and
every element width `w` (4 for the default `float32`), decoding the encoding
returns exactly the original matrix. -/
theorem decode_encode_roundtrip (w rows cols : Nat) (values : List Nat)
    (h1 : rows < 2 ^ 32) (h2 : cols < 2 ^ 32)
    (h3 : values.length = rows * cols) (h4 : ∀ v ∈ values, v < 256 ^ w) :
    ∃ s, encodeW w (rows : Int) (cols : Int) values = .ok s ∧
      decodeW w s = .ok (rows, cols, values) := by
  have hA : (bytesOfNat rows 4).length = 4 := bytesOfNat_length _ 4
  have hB : (bytesOfNat cols 4).length = 4 := bytesOfNat_length _ 4
  set P : List Nat := flatBytes (valueBytesW w) values with hP
  have hPlen : P.length = w * values.length :=
    flatBytes_length _ w (valueBytesW_length w) values
  set s : List Nat := bytesOfNat rows 4 ++ (bytesOfNat cols 4 ++ P) with hs
  have henc : encodeW w (rows : Int) (cols : Int) values = .ok s := by
    have := writeBinary_ok (rows : Int) (cols : Int) P (Int.natCast_nonneg rows)
      (by exact_mod_cast lt_of_lt_of_eq h1 (by norm_num))
      (Int.natCast_nonneg cols)
      (by exact_mod_cast lt_of_lt_of_eq h2 (by norm_num))
    simpa [encodeW, Int.toNat_natCast] using this
  have htake : s.take 4 = bytesOfNat rows 4 := take_append_left _ _ 4 hA
  have hdrop4 : s.drop 4 = bytesOfNat cols 4 ++ P := drop_append_left _ _ 4 hA
  have htake2 : (s.drop 4).take 4 = bytesOfNat cols 4 := by
    rw [hdrop4]; exact take_append_left _ _ 4 hB
  have hdrop8 : s.drop 8 = P := by
    have e1 : (8 : Nat) = 4 + 4 := by norm_num
    rw [e1, drop_append_add _ _ 4 4 hA, drop_append_left _ _ 4 hB]
  have hrows : natOfBytes (s.take 4) = rows := by
    rw [htake, natOfBytes_bytesOfNat]
    exact Nat.mod_eq_of_lt (by omega)
  have hcols : natOfBytes ((s.drop 4).take 4) = cols := by
    rw [htake2, natOfBytes_bytesOfNat]
    exact Nat.mod_eq_of_lt (by omega)
  have hslen : s.length = 4 + (4 + P.length) := by simp [hs, hA, hB]
  refine ⟨s, henc, ?_⟩
  have hcomm : rows * cols * w = w * (rows * cols) := by ring
  have hcond : ¬ P.length < rows * cols * w := by
    rw [hPlen, h3, ← hcomm]
    exact Nat.lt_irrefl _
  simp only [decodeW]
  rw [hrows, hcols, hdrop8]
  rw [if_neg (show ¬ s.length < 8 by omega), if_neg hcond]
  rw [← h3, hP, chunkValues_flatBytes w values h4]

/-- Witness for C2 at `w = 4`, `rows = 1`, `cols = 2`, `values = [7, 9]`. -/
theorem decode_encode_roundtrip_witness :
    ∃ s, encodeW 4 ((1 : Nat) : Int) ((2 : Nat) : Int) [7, 9] = .ok s ∧
      decodeW 4 s = .ok (1, 2, [7, 9]) :=
  decode_encode_roundtrip 4 1 2 [7, 9] (by norm_num) (by norm_num) (by decide)
    (by decide)

/-- Counterexample for C3: the write block performs no shape check.  Encoding
`rows = 2`, `cols = 2` with a single value succeeds (no `InvalidShape`
failure), although `1 ≠ 2 * 2`, producing a file whose header is inconsistent
with its payload (12 bytes instead of `8 + 16`). -/
theorem encode_unchecked_shape_cex :
    encode 2 2 [5] = .ok [2, 0, 0, 0, 2, 0, 0, 0, 5, 0, 0, 0] ∧
    ([5] : List Nat).length ≠ 2 * 2 := by
  constructor
  · decide
  · decide

/-- Claim C3, amended: Encode performs no shape validation: for every in-range
header pair it succeeds on any values list whatsoever, never failing with
`InvalidShape`.  (Consistency of produced files is instead established by the
producers' call sites, cf. C9.) -/
theorem encode_no_shape_validation (rows cols : Int) (values : List Nat)
    (h1 : 0 ≤ rows) (h2 : rows < 2 ^ 32) (h3 : 0 ≤ cols) (h4 : cols < 2 ^ 32) :
    ∃ s, encode rows cols values = .ok s := by
  have hpow : (2 : Int) ^ 32 = (256 : Int) ^ 4 := by norm_num
  exact ⟨_, writeBinary_ok rows cols _ h1 (hpow ▸ h2) h3 (hpow ▸ h4)⟩

/-- Witness for the amended C3 at a mismatched input (`2 * 2 ≠ 1`). -/
theorem encode_no_shape_validation_witness :
    ∃ s, encode 2 2 [9] = .ok s :=
  encode_no_shape_validation 2 2 [9] (by norm_num) (by norm_num) (by norm_num)
    (by norm_num)

/-- Claim C8: A zero-row matrix is valid: encoding `rows = 0, cols` (here also
concretely `cols = 3`) produces exactly the 8 header bytes and no payload, and
decoding those 8 bytes returns the empty matrix with `cols = 3`. -/
theorem encode_empty_matrix (cols : Int) (h0 : 0 ≤ cols) (h1 : cols < 2 ^ 32) :
    (∃ s, encode 0 cols [] = .ok s ∧ s.length = 8) ∧
    encode 0 3 [] = .ok [0, 0, 0, 0, 3, 0, 0, 0] ∧
    decode [0, 0, 0, 0, 3, 0, 0, 0] = .ok (0, 3, []) := by
  have hpow : (2 : Int) ^ 32 = (256 : Int) ^ 4 := by norm_num
  refine ⟨⟨bytesOfNat 0 4 ++ bytesOfNat cols.toNat 4 ++ [], ?_, ?_⟩, by decide, by decide⟩
  · exact writeBinary_ok 0 cols [] (by norm_num) (by norm_num) h0 (hpow ▸ h1)
  · simp [bytesOfNat_length]

/-- Witness for C8 at `cols = 3`. -/
theorem encode_empty_matrix_witness :
    (∃ s, encode 0 3 [] = .ok s ∧ s.length = 8) ∧
    encode 0 3 [] = .ok [0, 0, 0, 0, 3, 0, 0, 0] ∧
    decode [0, 0, 0, 0, 3, 0, 0, 0] = .ok (0, 3, []) :=
  encode_empty_matrix 3 (by norm_num) (by norm_num)

/-- Claim C10: The header integers are range-checked by construction:
`to_bytes` fails for a negative count or one at least `2^32`, a successful
`to_bytes` yields exactly 4 bytes, and every successful encode therefore has
`rows` and `cols` in `[0, 2^32)`. -/
theorem header_range_checked :
    (∀ n : Int, (n < 0 ∨ 2 ^ 32 ≤ n) → ∀ bs, toBytes n 4 ≠ .ok bs) ∧
    (∀ (n : Int) (bs : List Nat), toBytes n 4 = .ok bs → bs.length = 4) ∧
    (∀ (rows cols : Int) (values : List Nat) (s : List Nat),
      encode rows cols values = .ok s →
      0 ≤ rows ∧ rows < 2 ^ 32 ∧ 0 ≤ cols ∧ cols < 2 ^ 32) := by
  have hpow : (2 : Int) ^ 32 = (256 : Int) ^ 4 := by norm_num
  refine ⟨?_, ?_, ?_⟩
  · intro n hn bs hok
    have := toBytes_ok_range n 4 bs hok
    omega
  · intro n bs hok
    unfold toBytes at hok
    split at hok
    · cases hok
    · split at hok
      · cases hok
      · injection hok with h
        rw [← h]
        exact bytesOfNat_length _ 4
  · intro rows cols values s hok
    cases htr : toBytes rows 4 with
    | error e => simp [encode, encodeW, writeBinary, htr] at hok
    | ok h1 =>
      cases htc : toBytes cols 4 with
      | error e => simp [encode, encodeW, writeBinary, htr, htc] at hok
      | ok h2 =>
        have hr := toBytes_ok_range rows 4 h1 htr
        have hc := toBytes_ok_range cols 4 h2 htc
        omega

/-- Witness for C10: the successful encode of a `0 × 3` matrix has its header
integers in range. -/
theorem header_range_checked_witness :
    0 ≤ (0 : Int) ∧ (0 : Int) < 2 ^ 32 ∧ 0 ≤ (3 : Int) ∧ (3 : Int) < 2 ^ 32 :=
  header_range_checked.2.2 0 3 [] [0, 0, 0, 0, 3, 0, 0, 0] (by decide)

/-! ## The cluster data generator (`generate_data.py`)

`generate_data.py` line 41 calls
`sklearn.datasets.make_blobs(n_samples=size, n_features=dims,
centers=num_cluster, cluster_std=cluster_std, shuffle=True, random_state=1)`.
The library is external, so its pieces are modelled from the spec; what the
embedding keeps faithful is the repository's own choices: the explicit
`random_state=1` argument (so the ambient global generator is never
consulted), the pass-through of the command-line parameters without any
validation, and the optional `minmax_scale` step on line 47. -/

/-- The ambient process-global pseudo-random generator state
(`numpy.random`'s global state). -/
structure RngState where
  seed : Nat
deriving DecidableEq, Repr

/-- A small deterministic mixing function standing in for pseudo-random
number generation. -/
def mix (a b : Nat) : Nat := (a * 37 + b * 91 + 13) % 101

/-- Modelled from the spec: a seeded, reproducible pseudo-random sample in
`[0, 1)` (the "pseudo-random source supporting seeded, reproducible sampling"
collaborator of §6). -/
def pseudoUnit (s : Nat) : ℚ := (mix s 0 : ℚ) / 101

/-- Advance the global generator state (what drawing from the global
`numpy.random` generator would do). -/
def advanceRng (g : RngState) : RngState := ⟨mix g.seed 1⟩

/-- The `random_state` argument of an sklearn call: either `None`
(use and mutate the ambient global generator) or an explicit integer seed
(build a fresh local generator; the global state is neither read nor
advanced). -/
inductive RandomState where
  | ambient
  | int (seed : Nat)
deriving DecidableEq, Repr

/-- Modelled from the spec: sklearn's `check_random_state` dispatch.  With an
integer seed the returned generator seed is that integer and the global state
is untouched; with `None` the global generator is consumed and advanced. -/
def checkRandomState : RandomState → RngState → Nat × RngState
  | .ambient, g => (g.seed, advanceRng g)
  | .int s, g => (s, g)

/-- Modelled from the spec: the center of cluster `cl` in coordinate `j`
("any scheme that spreads `cluster_count` centers across the feature space is
acceptable", §4.2). -/
def blobCenter (seed cl j : Nat) : ℚ := 10 * pseudoUnit (mix seed (mix cl j)) - 5

/-- Modelled from the spec: the matrix returned by a successful
`make_blobs(n_samples=n, n_features=d, centers=k, cluster_std=std,
random_state=seed)` call — `n` samples of `d` features, each sample assigned
to a cluster (as evenly as possible) and perturbed from that cluster's center
by noise scaled by `std`.  Only the shape and the determinism in
`(n, d, k, std, seed)` matter to the claims; the numeric scheme itself is the
spec's "algorithm-internal" freedom. -/
def makeBlobsData (n d k seed : Nat) (std : ℚ) : List (List ℚ) :=
  (List.range n).map fun i =>
    (List.range d).map fun j =>
      blobCenter seed (i % k) j + std * (2 * pseudoUnit (mix seed (mix (i + k) j)) - 1)

/-- Modelled from the spec: the full `make_blobs` call, including the domain
checks the external library performs (a negative sample count, a negative
feature count, a nonpositive center count or a negative standard deviation
raise before any data is produced) and the `check_random_state` dispatch on
`random_state`. -/
def makeBlobsRun (n d k : Int) (std : ℚ) (rs : RandomState) (g : RngState) :
    Except DataError (List (List ℚ)) × RngState :=
  let (seed, g') := checkRandomState rs g
  if n < 0 then (.error .valueError, g')
  else if k = 0 then (.error .zeroDivisionError, g')
  else if k < 0 then (.error .valueError, g')
  else if std < 0 then (.error .valueError, g')
  else if d < 0 then (.error .valueError, g')
  else (.ok (makeBlobsData n.toNat d.toNat k.toNat seed std), g')

/-! ### Min-max scaling (`sklearn.preprocessing.minmax_scale`) -/

/-- Smallest element of a list of rationals (`0` for the empty list). -/
def minQ : List ℚ → ℚ
  | [] => 0
  | x :: xs => xs.foldl min x

/-- Largest element of a list of rationals (`0` for the empty list). -/
def maxQ : List ℚ → ℚ
  | [] => 0
  | x :: xs => xs.foldl max x

/-- Feature column `j` of a row-major matrix (missing entries read as `0`;
every matrix the scripts build is rectangular, so this default is never
exercised there). -/
def col (data : List (List ℚ)) (j : Nat) : List ℚ := data.map fun r => r.getD j 0

/-- Modelled from the spec: the per-entry affine min-max transform of
`sklearn.preprocessing.minmax_scale(data, feature_range=(0, 1))` for column
`j` — the column minimum maps to 0 and the column maximum to 1; a
zero-variance column maps to 0 (sklearn replaces the zero divisor by 1, and
`x - min = 0` on such a column). -/
def scaleEntry (data : List (List ℚ)) (j : Nat) (x : ℚ) : ℚ :=
  if maxQ (col data j) = minQ (col data j) then 0
  else (x - minQ (col data j)) / (maxQ (col data j) - minQ (col data j))

/-- Modelled from the spec: `minmax_scale` applied to the whole matrix, each
feature column rescaled independently. -/
def minmaxScale (data : List (List ℚ)) : List (List ℚ) :=
  data.map fun row => (List.range row.length).map fun j => scaleEntry data j (row.getD j 0)

/-! ### The generation step of `generate_data.py` (lines 38–47) -/

/-- The `--debug` branch, `np.arange(size * dims)`: a flat ascending array of
`size * dims` values (represented as a one-column matrix so that
`minmax_scale` treats it as the single feature it is; `np.arange` of a
negative count is empty, matching `Int.toNat`). -/
def debugData (size dims : Int) : List (List ℚ) :=
  (List.range (size * dims).toNat).map fun v : Nat => [(v : ℚ)]

/-- The data-generation step of `generate_data.py`: the `--debug` branch or
the `make_blobs` call with the hard-coded `random_state=1`, followed by the
optional `minmax_scale` when `--scale` is given.  The ambient global
generator state is threaded explicitly to make its (non-)use visible. -/
def generateData (size dims numCluster : Int) (clusterStd : ℚ)
    (scale debug : Bool) (g : RngState) :
    Except DataError (List (List ℚ)) × RngState :=
  match (if debug then (.ok (debugData size dims), g)
         else makeBlobsRun size dims numCluster clusterStd (.int 1) g) with
  | (.error e, g') => (.error e, g')
  | (.ok data, g') => (.ok (if scale then minmaxScale data else data), g')

/-- With an explicit integer seed, `make_blobs` neither reads nor advances the
ambient global generator: its result is the same whatever the global state. -/
theorem makeBlobsRun_int (n d k : Int) (std : ℚ) (s : Nat) (g : RngState) :
    makeBlobsRun n d k std (.int s) g =
      ((makeBlobsRun n d k std (.int s) ⟨0⟩).1, g) := by
  simp only [makeBlobsRun, checkRandomState]
  split_ifs <;> rfl

/-- Closed form of the generation step on the non-debug path: the external
collaborator's domain checks, then the (optionally rescaled) blob data with
the hard-coded seed `1`. -/
theorem generateData_fst (size dims k : Int) (std : ℚ) (scale : Bool) (g : RngState) :
    (generateData size dims k std scale false g).1 =
      if size < 0 then .error .valueError
      else if k = 0 then .error .zeroDivisionError
      else if k < 0 then .error .valueError
      else if std < 0 then .error .valueError
      else if dims < 0 then .error .valueError
      else .ok (if scale then minmaxScale (makeBlobsData size.toNat dims.toNat k.toNat 1 std)
                else makeBlobsData size.toNat dims.toNat k.toNat 1 std) := by
  simp only [generateData, Bool.false_eq_true, if_false, makeBlobsRun, checkRandomState]
  split_ifs <;> rfl

/-- Claim C4: The generation step is deterministic and pure with respect to its
random source: its matrix does not depend on the ambient global generator
state, the global state is returned unchanged (no hidden global mutable
random state leaks between calls, because `make_blobs` receives the explicit
seed `random_state=1`), and a second call sequenced after the first yields a
bit-identical matrix. -/
theorem generate_deterministic_pure (size dims k : Int) (std : ℚ)
    (scale debug : Bool) (g g' : RngState) :
    (generateData size dims k std scale debug g).1 =
      (generateData size dims k std scale debug g').1 ∧
    (generateData size dims k std scale debug g).2 = g ∧
    (generateData size dims k std scale debug
        ((generateData size dims k std scale debug g).2)).1 =
      (generateData size dims k std scale debug g).1 := by
  have key : ∀ h : RngState, generateData size dims k std scale debug h =
      ((generateData size dims k std scale debug ⟨0⟩).1, h) := by
    intro h
    cases debug with
    | true => simp [generateData]
    | false =>
      simp only [generateData, Bool.false_eq_true, if_false]
      rw [makeBlobsRun_int size dims k std 1 h, makeBlobsRun_int size dims k std 1 ⟨0⟩]
      cases (makeBlobsRun size dims k std (.int 1) ⟨0⟩).1 <;> rfl
  refine ⟨by rw [key g, key g'], by rw [key g], ?_⟩
  rw [key ((generateData size dims k std scale debug g).2), key g]

/-- Witness for C4 at two distinct ambient generator states. -/
theorem generate_deterministic_pure_witness :
    (generateData 3 2 3 1 false false ⟨5⟩).1 =
      (generateData 3 2 3 1 false false ⟨99⟩).1 ∧
    (generateData 3 2 3 1 false false ⟨5⟩).2 = ⟨5⟩ ∧
    (generateData 3 2 3 1 false false
        ((generateData 3 2 3 1 false false ⟨5⟩).2)).1 =
      (generateData 3 2 3 1 false false ⟨5⟩).1 :=
  generate_deterministic_pure 3 2 3 1 false false ⟨5⟩ ⟨99⟩

/-- Counterexample for C6: the script validates none of its parameters.
`cluster_std = 0` violates the claimed constraint `cluster_std > 0`, yet the
generation step succeeds instead of failing with `InvalidParameter`. -/
theorem generate_invalid_param_cex :
    (generateData 4 2 1 0 false false ⟨0⟩).1.isOk = true ∧ ¬ ((0 : ℚ) > 0) := by
  exact ⟨rfl, by norm_num⟩

/-- Claim C6, amended: The generation step performs no parameter validation of
its own; it fails exactly where the external collaborator raises — a negative
sample count, a negative dimension count, a nonpositive cluster count, or a
negative standard deviation.  In particular `cluster_std = 0` and
`dim_count = 0` are accepted. -/
theorem generate_ok_iff (size dims k : Int) (std : ℚ) (scale : Bool) (g : RngState) :
    (generateData size dims k std scale false g).1.isOk = true ↔
      (0 ≤ size ∧ 0 ≤ dims ∧ 1 ≤ k ∧ 0 ≤ std) := by
  rw [generateData_fst]
  split_ifs with h1 h2 h3 h4 h5
  · simp only [Except.isOk, Except.toBool, Bool.false_eq_true, false_iff]
    intro hc; omega
  · simp only [Except.isOk, Except.toBool, Bool.false_eq_true, false_iff]
    intro hc; omega
  · simp only [Except.isOk, Except.toBool, Bool.false_eq_true, false_iff]
    intro hc; omega
  · simp only [Except.isOk, Except.toBool, Bool.false_eq_true, false_iff]
    intro hc; exact absurd h4 (not_lt.mpr hc.2.2.2)
  · simp only [Except.isOk, Except.toBool, Bool.false_eq_true, false_iff]
    intro hc; omega
  · simp only [Except.isOk, Except.toBool, true_iff]
    exact ⟨by omega, by omega, by omega, not_lt.mp h4⟩
  · simp only [Except.isOk, Except.toBool, true_iff]
    exact ⟨by omega, by omega, by omega, not_lt.mp h4⟩

/-- Witness for the amended C6 at `size = 4`, `dims = 2`, `k = 3`,
`std = 1`. -/
theorem generate_ok_iff_witness :
    (generateData 4 2 3 1 false false ⟨0⟩).1.isOk = true ↔
      (0 ≤ (4 : Int) ∧ 0 ≤ (2 : Int) ∧ 1 ≤ (3 : Int) ∧ 0 ≤ (1 : ℚ)) :=
  generate_ok_iff 4 2 3 1 false ⟨0⟩

/-! ### Facts about `minQ` / `maxQ` -/

theorem foldl_min_le_init (xs : List ℚ) : ∀ a : ℚ, xs.foldl min a ≤ a := by
  induction xs with
  | nil => intro a; simp
  | cons x xs ih =>
    intro a
    calc (x :: xs).foldl min a = xs.foldl min (min a x) := rfl
      _ ≤ min a x := ih (min a x)
      _ ≤ a := min_le_left a x

theorem foldl_min_le_mem (xs : List ℚ) : ∀ (a y : ℚ), y ∈ xs → xs.foldl min a ≤ y := by
  induction xs with
  | nil => intro a y hy; simp at hy
  | cons x xs ih =>
    intro a y hy
    rcases List.mem_cons.mp hy with h | h
    · subst h
      calc (y :: xs).foldl min a = xs.foldl min (min a y) := rfl
        _ ≤ min a y := foldl_min_le_init xs (min a y)
        _ ≤ y := min_le_right a y
    · exact ih (min a x) y h

theorem foldl_min_mem (xs : List ℚ) :
    ∀ a : ℚ, xs.foldl min a = a ∨ xs.foldl min a ∈ xs := by
  induction xs with
  | nil => intro a; left; rfl
  | cons x xs ih =>
    intro a
    rcases ih (min a x) with h | h
    · rcases min_choice a x with hm | hm
      · left
        show xs.foldl min (min a x) = a
        rw [h, hm]
      · right
        show xs.foldl min (min a x) ∈ x :: xs
        rw [h, hm]
        exact List.mem_cons_self x xs
    · right
      exact List.mem_cons_of_mem x h

theorem foldl_max_ge_init (xs : List ℚ) : ∀ a : ℚ, a ≤ xs.foldl max a := by
  induction xs with
  | nil => intro a; simp
  | cons x xs ih =>
    intro a
    calc a ≤ max a x := le_max_left a x
      _ ≤ xs.foldl max (max a x) := ih (max a x)
      _ = (x :: xs).foldl max a := rfl

theorem foldl_max_ge_mem (xs : List ℚ) : ∀ (a y : ℚ), y ∈ xs → y ≤ xs.foldl max a := by
  induction xs with
  | nil => intro a y hy; simp at hy
  | cons x xs ih =>
    intro a y hy
    rcases List.mem_cons.mp hy with h | h
    · subst h
      calc y ≤ max a y := le_max_right a y
        _ ≤ xs.foldl max (max a y) := foldl_max_ge_init xs (max a y)
        _ = (y :: xs).foldl max a := rfl
    · exact ih (max a x) y h

theorem foldl_max_mem (xs : List ℚ) :
    ∀ a : ℚ, xs.foldl max a = a ∨ xs.foldl max a ∈ xs := by
  induction xs with
  | nil => intro a; left; rfl
  | cons x xs ih =>
    intro a
    rcases ih (max a x) with h | h
    · rcases max_choice a x with hm | hm
      · left
        show xs.foldl max (max a x) = a
        rw [h, hm]
      · right
        show xs.foldl max (max a x) ∈ x :: xs
        rw [h, hm]
        exact List.mem_cons_self x xs
    · right
      exact List.mem_cons_of_mem x h

theorem minQ_le (l : List ℚ) (y : ℚ) (hy : y ∈ l) : minQ l ≤ y := by
  cases l with
  | nil => simp at hy
  | cons x xs =>
    rcases List.mem_cons.mp hy with h | h
    · subst h; exact foldl_min_le_init xs y
    · exact foldl_min_le_mem xs x y h

theorem minQ_mem (l : List ℚ) (h : l ≠ []) : minQ l ∈ l := by
  cases l with
  | nil => exact absurd rfl h
  | cons x xs =>
    have he : minQ (x :: xs) = xs.foldl min x := rfl
    rcases foldl_min_mem xs x with h1 | h1
    · rw [he, h1]; exact List.mem_cons_self x xs
    · rw [he]; exact List.mem_cons_of_mem x h1

theorem maxQ_ge (l : List ℚ) (y : ℚ) (hy : y ∈ l) : y ≤ maxQ l := by
  cases l with
  | nil => simp at hy
  | cons x xs =>
    rcases List.mem_cons.mp hy with h | h
    · subst h; exact foldl_max_ge_init xs y
    · exact foldl_max_ge_mem xs x y h

theorem maxQ_mem (l : List ℚ) (h : l ≠ []) : maxQ l ∈ l := by
  cases l with
  | nil => exact absurd rfl h
  | cons x xs =>
    have he : maxQ (x :: xs) = xs.foldl max x := rfl
    rcases foldl_max_mem xs x with h1 | h1
    · rw [he, h1]; exact List.mem_cons_self x xs
    · rw [he]; exact List.mem_cons_of_mem x h1

theorem minQ_le_maxQ (l : List ℚ) (h : l ≠ []) : minQ l ≤ maxQ l :=
  minQ_le l (maxQ l) (maxQ_mem l h)

/-! ### Facts about the min-max transform -/

theorem mem_col (data : List (List ℚ)) (j : Nat) (r : List ℚ) (hr : r ∈ data) :
    r.getD j 0 ∈ col data j :=
  List.mem_map_of_mem _ hr

theorem scaleEntry_bounds (data : List (List ℚ)) (j : Nat) (x : ℚ)
    (hx : x ∈ col data j) : 0 ≤ scaleEntry data j x ∧ scaleEntry data j x ≤ 1 := by
  have hne : col data j ≠ [] := List.ne_nil_of_mem hx
  unfold scaleEntry
  split_ifs with heq
  · norm_num
  · have hlo : minQ (col data j) ≤ x := minQ_le _ x hx
    have hhi : x ≤ maxQ (col data j) := maxQ_ge _ x hx
    have hlt : minQ (col data j) < maxQ (col data j) :=
      lt_of_le_of_ne (minQ_le_maxQ _ hne) (fun h => heq h.symm)
    constructor
    · exact div_nonneg (by linarith) (by linarith)
    · rw [div_le_one (by linarith)]
      linarith

theorem scaleEntry_at_min (data : List (List ℚ)) (j : Nat)
    (hne : maxQ (col data j) ≠ minQ (col data j)) :
    scaleEntry data j (minQ (col data j)) = 0 := by
  unfold scaleEntry
  rw [if_neg hne]
  simp

theorem scaleEntry_at_max (data : List (List ℚ)) (j : Nat)
    (hne : maxQ (col data j) ≠ minQ (col data j)) :
    scaleEntry data j (maxQ (col data j)) = 1 := by
  unfold scaleEntry
  rw [if_neg hne]
  exact div_self (sub_ne_zero.mpr hne)

/-- Every entry of the rescaled matrix lies in the unit interval. -/
theorem minmaxScale_mem_bounds (data : List (List ℚ)) (row : List ℚ)
    (hrow : row ∈ minmaxScale data) (x : ℚ) (hx : x ∈ row) : 0 ≤ x ∧ x ≤ 1 := by
  rcases List.mem_map.mp hrow with ⟨r, hr, hrow'⟩
  subst hrow'
  rcases List.mem_map.mp hx with ⟨j, hj, hx'⟩
  subst hx'
  exact scaleEntry_bounds data j (r.getD j 0) (mem_col data j r hr)

theorem getD_map_range (n : Nat) (f : Nat → ℚ) (j : Nat) (hj : j < n) :
    ((List.range n).map f).getD j 0 = f j := by
  have hlen : j < ((List.range n).map f).length := by simpa using hj
  rw [List.getD_eq_getElem _ _ hlen]
  simp

/-- On a matrix all of whose rows reach past column `j`, the rescaled matrix's
column `j` is the pointwise transform of the raw column `j`. -/
theorem col_minmaxScale (data : List (List ℚ)) (j : Nat)
    (hj : ∀ r ∈ data, j < r.length) :
    col (minmaxScale data) j = (col data j).map (scaleEntry data j) := by
  unfold col minmaxScale
  rw [List.map_map, List.map_map]
  apply List.map_congr_left
  intro r hr
  exact getD_map_range r.length (fun j' => scaleEntry data j' (r.getD j' 0)) j (hj r hr)

/-- A non-constant raw column attains both endpoints after rescaling. -/
theorem minmaxScale_attains (data : List (List ℚ)) (j : Nat)
    (hne : maxQ (col data j) ≠ minQ (col data j))
    (hj : ∀ r ∈ data, j < r.length) :
    0 ∈ col (minmaxScale data) j ∧ 1 ∈ col (minmaxScale data) j := by
  have hcolne : col data j ≠ [] := by
    intro hc
    apply hne
    rw [hc]
    rfl
  rw [col_minmaxScale data j hj]
  constructor
  · have hm := minQ_mem (col data j) hcolne
    have h0 := scaleEntry_at_min data j hne
    exact h0 ▸ List.mem_map_of_mem _ hm
  · have hm := maxQ_mem (col data j) hcolne
    have h1 := scaleEntry_at_max data j hne
    exact h1 ▸ List.mem_map_of_mem _ hm

theorem makeBlobsData_row_length (n d k seed : Nat) (std : ℚ) :
    ∀ r ∈ makeBlobsData n d k seed std, r.length = d := by
  intro r hr
  rcases List.mem_map.mp hr with ⟨i, _, hr'⟩
  subst hr'
  simp

/-- Claim C5: When scaling is requested, every value of the matrix the
generation step returns lies in `[0, 1]`, and every feature column whose raw
generated column is not constant attains both `0` and `1` — the matrix is the
independent per-column affine min-max transform of the generated data. -/
theorem generate_scale_bounds (size dims k : Int) (std : ℚ) (g : RngState)
    (M : List (List ℚ))
    (hok : (generateData size dims k std true false g).1 = .ok M) :
    (∀ row ∈ M, ∀ x ∈ row, 0 ≤ x ∧ x ≤ 1) ∧
    (∀ j : Nat, j < dims.toNat →
      maxQ (col (makeBlobsData size.toNat dims.toNat k.toNat 1 std) j) ≠
        minQ (col (makeBlobsData size.toNat dims.toNat k.toNat 1 std) j) →
      0 ∈ col M j ∧ 1 ∈ col M j) := by
  rw [generateData_fst] at hok
  split_ifs at hok with h1 h2 h3 h4 h5 h6
  · injection hok with hM
    subst hM
    constructor
    · intro row hrow x hx
      exact minmaxScale_mem_bounds _ row hrow x hx
    · intro j hjd hne
      apply minmaxScale_attains _ j hne
      intro r hr
      rw [makeBlobsData_row_length size.toNat dims.toNat k.toNat 1 std r hr]
      exact hjd
  · exact absurd rfl h6

/-- Witness for C5 at `size = 2`, `dims = 1`, `k = 1`, `std = 1`. -/
theorem generate_scale_bounds_witness :
    (∀ row ∈ minmaxScale (makeBlobsData (2 : Int).toNat (1 : Int).toNat (1 : Int).toNat 1 1),
      ∀ x ∈ row, 0 ≤ x ∧ x ≤ 1) ∧
    (∀ j : Nat, j < (1 : Int).toNat →
      maxQ (col (makeBlobsData (2 : Int).toNat (1 : Int).toNat (1 : Int).toNat 1 1) j) ≠
        minQ (col (makeBlobsData (2 : Int).toNat (1 : Int).toNat (1 : Int).toNat 1 1) j) →
      0 ∈ col (minmaxScale (makeBlobsData (2 : Int).toNat (1 : Int).toNat (1 : Int).toNat 1 1)) j ∧
      1 ∈ col (minmaxScale (makeBlobsData (2 : Int).toNat (1 : Int).toNat (1 : Int).toNat 1 1)) j) :=
  generate_scale_bounds 2 1 1 1 ⟨0⟩
    (minmaxScale (makeBlobsData (2 : Int).toNat (1 : Int).toNat (1 : Int).toNat 1 1))
    (by rw [generateData_fst]; norm_num)

/-! ## The text-format importer (`convert_arff_to_binary.py`)

The grammar work is delegated to `scipy.io.arff.loadarff`, an external
collaborator; per the spec (§4.3/§6) the parser's contract is to return the
declared-attribute count and row-wise field values, failing on rows whose
field count does not match.  The repository's own line
`np.array(data.tolist(), dtype=real_type)` then converts every field to the
target numeric type, failing on a field that is not numerically
convertible. -/

/-- One field of a parsed data row: either a numeric value or a token that
cannot be converted to the target numeric type. -/
inductive ArffField where
  | num (q : ℚ)
  | token (s : String)
deriving DecidableEq, Repr

/-- A text input as the external parser sees it: the declared attribute count
and the field lists of the data rows. -/
structure ArffFile where
  attrCount : Nat
  rows : List (List ArffField)
deriving DecidableEq, Repr

/-- Modelled from the spec: the external text-grammar parser
(`scipy.io.arff.loadarff`).  It fails when the file declares no attributes
(`EmptyRelation`) or when some data row's field count does not match the
declared attribute count (`MalformedInput`); otherwise it returns the rows. -/
def loadarff (f : ArffFile) : Except DataError (List (List ArffField)) :=
  if f.attrCount = 0 then .error .emptyRelation
  else if f.rows.all fun r => r.length = f.attrCount then .ok f.rows
  else .error .malformedInput

/-- Conversion of one field to the target numeric type (an entry of
`np.array(data.tolist(), dtype=real_type)`); a non-convertible field raises —
the spec's `MalformedInput`. -/
def fieldToReal : ArffField → Except DataError ℚ
  | .num q => .ok q
  | .token _ => .error .malformedInput

/-- Effectful map over a list, propagating the first failure (the shape of
the element-wise numpy conversion). -/
def exceptMapList (f : α → Except DataError β) : List α → Except DataError (List β)
  | [] => .ok []
  | x :: xs =>
    match f x with
    | .error e => .error e
    | .ok y =>
      match exceptMapList f xs with
      | .error e => .error e
      | .ok ys => .ok (y :: ys)

/-- `Import`: parse the file, then convert every field to the target numeric
type (`arff.loadarff` followed by `np.array(data.tolist(), dtype=real_type)`
in `convert_arff_to_binary.py` lines 32–33). -/
def importArff (f : ArffFile) : Except DataError (List (List ℚ)) :=
  match loadarff f with
  | .error e => .error e
  | .ok rows => exceptMapList (exceptMapList fieldToReal) rows

theorem exceptMapList_error_of_mem (f : α → Except DataError β) (l : List α)
    (x : α) (hx : x ∈ l) (e : DataError) (he : f x = .error e) :
    ∃ e', exceptMapList f l = .error e' := by
  induction l with
  | nil => simp at hx
  | cons y ys ih =>
    rcases List.mem_cons.mp hx with h | h
    · subst h
      exact ⟨e, by simp [exceptMapList, he]⟩
    · rcases hf : f y with e₀ | v
      · exact ⟨e₀, by simp [exceptMapList, hf]⟩
      · rcases ih h with ⟨e', he'⟩
        exact ⟨e', by simp [exceptMapList, hf, he']⟩

theorem exceptMapList_error_name (f : α → Except DataError β)
    (hf : ∀ x e, f x = .error e → e = .malformedInput) :
    ∀ (l : List α) (e : DataError), exceptMapList f l = .error e →
      e = .malformedInput := by
  intro l
  induction l with
  | nil => intro e he; simp [exceptMapList] at he
  | cons y ys ih =>
    intro e he
    rcases hfy : f y with e₀ | v
    · rw [exceptMapList, hfy] at he
      injection he with he'
      exact he' ▸ hf y e₀ hfy
    · rw [exceptMapList, hfy] at he
      rcases hys : exceptMapList f ys with e₁ | vs
      · rw [hys] at he
        injection he with he'
        exact he' ▸ ih e₁ hys
      · rw [hys] at he
        exact Except.noConfusion he

theorem fieldToReal_error_name (x : ArffField) (e : DataError)
    (he : fieldToReal x = .error e) : e = .malformedInput := by
  cases x with
  | num q => simp [fieldToReal] at he
  | token s =>
    rw [fieldToReal] at he
    injection he with he'
    exact he'.symm

/-- Claim C7: Importing a text input in which some data row's field count does
not match the declared attribute count, or in which some field is not
convertible to the target numeric type, fails with `MalformedInput`. -/
theorem import_malformed (f : ArffFile) (h0 : 0 < f.attrCount)
    (h : (∃ r ∈ f.rows, r.length ≠ f.attrCount) ∨
      (∃ r ∈ f.rows, ∃ x ∈ r, ∀ q : ℚ, x ≠ .num q)) :
    importArff f = .error .malformedInput := by
  have h0' : f.attrCount ≠ 0 := Nat.pos_iff_ne_zero.mp h0
  rcases h with ⟨r, hr, hlen⟩ | ⟨r, hr, x, hx, hnum⟩
  · have : ¬ (f.rows.all fun r => r.length = f.attrCount) = true := by
      simp only [List.all_eq_true, decide_eq_true_eq]
      intro hall
      exact hlen (hall r hr)
    rw [importArff, loadarff, if_neg h0', if_neg this]
  · by_cases hall : (f.rows.all fun r => r.length = f.attrCount) = true
    · rw [importArff, loadarff, if_neg h0', if_pos hall]
      have hxerr : fieldToReal x = .error .malformedInput := by
        cases x with
        | num q => exact absurd rfl (hnum q)
        | token s => rfl
      rcases exceptMapList_error_of_mem fieldToReal r x hx .malformedInput hxerr
        with ⟨e₁, he₁⟩
      rcases exceptMapList_error_of_mem (exceptMapList fieldToReal) f.rows r hr e₁ he₁
        with ⟨e₂, he₂⟩
      have : e₂ = .malformedInput := by
        apply exceptMapList_error_name (exceptMapList fieldToReal) _ f.rows e₂ he₂
        intro l e he
        exact exceptMapList_error_name fieldToReal fieldToReal_error_name l e he
      exact this ▸ he₂
    · rw [importArff, loadarff, if_neg h0', if_neg hall]

/-- Witness for C7: a file declaring 4 attributes whose single data row has
only 3 fields fails with the spec's `MalformedInput`. -/
theorem import_malformed_witness :
    importArff ⟨4, [[.num 1, .num 2, .num 3]]⟩ = .error .malformedInput :=
  import_malformed ⟨4, [[.num 1, .num 2, .num 3]]⟩ (by norm_num)
    (Or.inl ⟨[.num 1, .num 2, .num 3], by simp, by simp⟩)

/-! ## The two full producer pipelines -/

/-- Modelled from the spec: the 4-byte serialization of one `np.float32`
value.  The spec fixes its width (`sizeof(T) = 4` for the default type); the
IEEE-754 bit pattern itself is opaque to every claim, so a fixed executable
stand-in of the correct width represents it. -/
def floatBytes (q : ℚ) : List Nat := bytesOfNat q.num.natAbs 4

/-- `data.tobytes()` for a matrix of values: the per-value 4-byte groups in
row-major order. -/
def tobytesQ (data : List (List ℚ)) : List Nat :=
  flatBytes (fun row => flatBytes floatBytes row) data

/-- The binary path of `generate_data.py` (lines 38–55): generate the data,
then write `size`, `dims` and `data.tobytes()`. -/
def genPipeline (size dims numCluster : Int) (clusterStd : ℚ)
    (scale debug : Bool) (g : RngState) : Except DataError (List Nat) × RngState :=
  match generateData size dims numCluster clusterStd scale debug g with
  | (.error e, g') => (.error e, g')
  | (.ok data, g') => (writeBinary size dims (tobytesQ data), g')

/-- The full path of `convert_arff_to_binary.py` (lines 32–40): import, then
write `data.shape[0]`, `data.shape[1]` and `data.tobytes()` (`shape[1]` of an
empty parse raises `IndexError`, as numpy's shape lookup does on the empty
1-D array the empty row list becomes). -/
def convertPipeline (f : ArffFile) : Except DataError (List Nat) :=
  match importArff f with
  | .error e => .error e
  | .ok [] => .error .indexError
  | .ok (r :: rs) =>
    writeBinary ((r :: rs).length : Int) (r.length : Int) (tobytesQ (r :: rs))

theorem tobytesQ_length (data : List (List ℚ)) (d : Nat)
    (hd : ∀ r ∈ data, r.length = d) :
    (tobytesQ data).length = 4 * d * data.length := by
  induction data with
  | nil => simp [tobytesQ, flatBytes]
  | cons r rs ih =>
    have hr : (flatBytes floatBytes r).length = 4 * r.length :=
      flatBytes_length floatBytes 4 (fun q => bytesOfNat_length _ 4) r
    have htail : (tobytesQ rs).length = 4 * d * rs.length :=
      ih fun x hx => hd x (List.mem_cons_of_mem r hx)
    have hhead : r.length = d := hd r (List.mem_cons_self r rs)
    show ((flatBytes floatBytes r) ++ tobytesQ rs).length = 4 * d * (r :: rs).length
    rw [List.length_append, hr, hhead, htail, List.length_cons]
    ring

theorem makeBlobsData_length (n d k seed : Nat) (std : ℚ) :
    (makeBlobsData n d k seed std).length = n := by
  simp [makeBlobsData]

theorem minmaxScale_length (data : List (List ℚ)) :
    (minmaxScale data).length = data.length := by
  simp [minmaxScale]

theorem minmaxScale_row_length (data : List (List ℚ)) (d : Nat)
    (hd : ∀ r ∈ data, r.length = d) :
    ∀ r ∈ minmaxScale data, r.length = d := by
  intro r hr
  rcases List.mem_map.mp hr with ⟨r₀, hr₀, hr'⟩
  subst hr'
  simp [hd r₀ hr₀]

theorem debugData_length (size dims : Int) :
    (debugData size dims).length = (size * dims).toNat := by
  rw [debugData, List.length_map, List.length_range]

theorem debugData_row_length (size dims : Int) :
    ∀ r ∈ debugData size dims, r.length = 1 := by
  intro r hr
  rcases List.mem_map.mp hr with ⟨v, _, hr'⟩
  subst hr'
  rfl

theorem generateData_debug_fst (size dims k : Int) (std : ℚ) (scale : Bool)
    (g : RngState) :
    (generateData size dims k std scale true g).1 =
      .ok (if scale then minmaxScale (debugData size dims) else debugData size dims) :=
  rfl

theorem genPipeline_fst (size dims k : Int) (std : ℚ) (scale debug : Bool)
    (g : RngState) :
    (genPipeline size dims k std scale debug g).1 =
      match (generateData size dims k std scale debug g).1 with
      | .error e => .error e
      | .ok data => writeBinary size dims (tobytesQ data) := by
  unfold genPipeline
  cases hgen : generateData size dims k std scale debug g with
  | mk res g' => cases res <;> simp

theorem toBytes_ok_length (n : Int) (len : Nat) (bs : List Nat)
    (h : toBytes n len = .ok bs) : bs.length = len := by
  unfold toBytes at h
  split at h
  · exact Except.noConfusion h
  · split at h
    · exact Except.noConfusion h
    · injection h with h'
      rw [← h']
      exact bytesOfNat_length _ len

theorem writeBinary_ok_length (size dims : Int) (payload s : List Nat)
    (h : writeBinary size dims payload = .ok s) :
    s.length = 8 + payload.length := by
  rw [writeBinary] at h
  rcases h1 : toBytes size 4 with e | b1
  · rw [h1] at h; exact Except.noConfusion h
  · rw [h1] at h
    rcases h2 : toBytes dims 4 with e | b2
    · rw [h2] at h; exact Except.noConfusion h
    · rw [h2] at h
      injection h with h'
      rw [← h', List.length_append, List.length_append,
        toBytes_ok_length size 4 b1 h1, toBytes_ok_length dims 4 b2 h2]
      omega

theorem toNat_mul_nonneg (a b : Int) (ha : 0 ≤ a) (hb : 0 ≤ b) :
    (a * b).toNat = a.toNat * b.toNat := by
  obtain ⟨m, rfl⟩ := Int.eq_ofNat_of_zero_le ha
  obtain ⟨n, rfl⟩ := Int.eq_ofNat_of_zero_le hb
  rw [← Int.natCast_mul, Int.toNat_natCast, Int.toNat_natCast, Int.toNat_natCast]

theorem exceptMapList_ok_length (f : α → Except DataError β) :
    ∀ (l : List α) (res : List β), exceptMapList f l = .ok res →
      res.length = l.length := by
  intro l
  induction l with
  | nil =>
    intro res h
    rw [exceptMapList] at h
    injection h with h'
    rw [← h']
    rfl
  | cons x xs ih =>
    intro res h
    rw [exceptMapList] at h
    rcases hfx : f x with e | y
    · rw [hfx] at h; exact Except.noConfusion h
    · rw [hfx] at h
      rcases hxs : exceptMapList f xs with e | ys
      · rw [hxs] at h; exact Except.noConfusion h
      · rw [hxs] at h
        injection h with h'
        rw [← h']
        simp [ih ys hxs]

theorem exceptMapList_ok_mem (f : α → Except DataError β) :
    ∀ (l : List α) (res : List β), exceptMapList f l = .ok res →
      ∀ y ∈ res, ∃ x ∈ l, f x = .ok y := by
  intro l
  induction l with
  | nil =>
    intro res h y hy
    rw [exceptMapList] at h
    injection h with h'
    rw [← h'] at hy
    simp at hy
  | cons x xs ih =>
    intro res h y hy
    rw [exceptMapList] at h
    rcases hfx : f x with e | v
    · rw [hfx] at h; exact Except.noConfusion h
    · rw [hfx] at h
      rcases hxs : exceptMapList f xs with e | vs
      · rw [hxs] at h; exact Except.noConfusion h
      · rw [hxs] at h
        injection h with h'
        rw [← h'] at hy
        rcases List.mem_cons.mp hy with hv | hv
        · exact ⟨x, List.mem_cons_self x xs, hv ▸ hfx⟩
        · rcases ih vs hxs y hv with ⟨x₀, hx₀, hfx₀⟩
          exact ⟨x₀, List.mem_cons_of_mem x hx₀, hfx₀⟩

/-- Inversion of a successful import: as many converted rows as data rows,
each of the declared attribute count. -/
theorem importArff_ok (f : ArffFile) (m : List (List ℚ))
    (h : importArff f = .ok m) :
    m.length = f.rows.length ∧ ∀ row ∈ m, row.length = f.attrCount := by
  rw [importArff] at h
  rcases hld : loadarff f with e | rows
  · rw [hld] at h; exact Except.noConfusion h
  · rw [hld] at h
    have hinv : rows = f.rows ∧ ∀ r ∈ f.rows, r.length = f.attrCount := by
      rw [loadarff] at hld
      split_ifs at hld with hc1 hc2
      · injection hld with h'
        refine ⟨h'.symm, ?_⟩
        simp only [List.all_eq_true, decide_eq_true_eq] at hc2
        exact hc2
    obtain ⟨hre, hall⟩ := hinv
    subst hre
    constructor
    · exact exceptMapList_ok_length _ f.rows m h
    · intro row hrow
      rcases exceptMapList_ok_mem _ f.rows m h row hrow with ⟨r₀, hr₀, hconv⟩
      rw [exceptMapList_ok_length fieldToReal r₀ row hconv, hall r₀ hr₀]

/-- Claim C9: Every file either producer writes satisfies the shape invariant
by construction.  The generator writes its header from the same `size` and
`dims` it generates the data with, so a successful run writes exactly
`8 + 4 * size * dims` bytes; the converter writes its header from the parsed
array's own shape, so a successful conversion writes exactly
`8 + 4 * rows * attrCount` bytes. -/
theorem producers_shape_invariant :
    (∀ (size dims k : Int) (std : ℚ) (scale debug : Bool) (g : RngState),
      0 ≤ size → size < 2 ^ 32 → 0 ≤ dims → dims < 2 ^ 32 → 1 ≤ k → 0 ≤ std →
      ∃ s, (genPipeline size dims k std scale debug g).1 = .ok s ∧
        s.length = 8 + 4 * (size.toNat * dims.toNat)) ∧
    (∀ (f : ArffFile) (s : List Nat), convertPipeline f = .ok s →
      s.length = 8 + 4 * (f.rows.length * f.attrCount)) := by
  have hpow : (2 : Int) ^ 32 = (256 : Int) ^ 4 := by norm_num
  constructor
  · intro size dims k std scale debug g hs0 hs1 hd0 hd1 hk hstd
    rw [genPipeline_fst]
    cases debug with
    | true =>
      rw [generateData_debug_fst]
      set data := if scale then minmaxScale (debugData size dims) else debugData size dims
        with hdata
      have hrowlen : ∀ r ∈ data, r.length = 1 := by
        rw [hdata]
        split_ifs
        · exact minmaxScale_row_length _ 1 (debugData_row_length size dims)
        · exact debugData_row_length size dims
      have hcnt : data.length = (size * dims).toNat := by
        rw [hdata]
        split_ifs
        · rw [minmaxScale_length, debugData_length]
        · rw [debugData_length]
      have hpay : (tobytesQ data).length = 4 * 1 * (size * dims).toNat := by
        rw [tobytesQ_length data 1 hrowlen, hcnt]
      refine ⟨_, writeBinary_ok size dims (tobytesQ data) hs0 (hpow ▸ hs1) hd0
        (hpow ▸ hd1), ?_⟩
      simp only [List.length_append, bytesOfNat_length, hpay,
        toNat_mul_nonneg size dims hs0 hd0]
      ring
    | false =>
      rw [generateData_fst, if_neg (not_lt.mpr hs0), if_neg (by omega : ¬ k = 0),
        if_neg (by omega : ¬ k < 0), if_neg (not_lt.mpr hstd), if_neg (not_lt.mpr hd0)]
      set raw := makeBlobsData size.toNat dims.toNat k.toNat 1 std with hraw
      set data := if scale then minmaxScale raw else raw with hdata
      have hrowlen : ∀ r ∈ data, r.length = dims.toNat := by
        rw [hdata]
        split_ifs
        · exact minmaxScale_row_length _ _
            (makeBlobsData_row_length size.toNat dims.toNat k.toNat 1 std)
        · exact makeBlobsData_row_length size.toNat dims.toNat k.toNat 1 std
      have hcnt : data.length = size.toNat := by
        rw [hdata]
        split_ifs
        · rw [minmaxScale_length, hraw, makeBlobsData_length]
        · rw [hraw, makeBlobsData_length]
      have hpay : (tobytesQ data).length = 4 * dims.toNat * size.toNat := by
        rw [tobytesQ_length data dims.toNat hrowlen, hcnt]
      refine ⟨_, writeBinary_ok size dims (tobytesQ data) hs0 (hpow ▸ hs1) hd0
        (hpow ▸ hd1), ?_⟩
      simp only [List.length_append, bytesOfNat_length, hpay]
      ring
  · intro f s hok
    rw [convertPipeline] at hok
    rcases him : importArff f with e | m
    · rw [him] at hok; exact Except.noConfusion hok
    · rw [him] at hok
      obtain ⟨hmlen, hmrow⟩ := importArff_ok f m him
      cases m with
      | nil => exact Except.noConfusion hok
      | cons r rs =>
        have hs := writeBinary_ok_length _ _ _ s hok
        have hpay : (tobytesQ (r :: rs)).length = 4 * f.attrCount * (r :: rs).length :=
          tobytesQ_length (r :: rs) f.attrCount hmrow
        rw [hs, hpay, hmlen]
        ring

/-- Witness for C9 at `size = 2`, `dims = 3`, `k = 1`, `std = 1` on the
generator pipeline. -/
theorem producers_shape_invariant_witness :
    ∃ s, (genPipeline 2 3 1 1 false false ⟨0⟩).1 = .ok s ∧
      s.length = 8 + 4 * ((2 : Int).toNat * (3 : Int).toNat) :=
  producers_shape_invariant.1 2 3 1 1 false false ⟨0⟩ (by norm_num) (by norm_num)
    (by norm_num) (by norm_num) (by norm_num) (by norm_num)

end DataSets
